import Mathlib

/-!
Verification development for the paperbot repository (src/paperbot.py).

The script fetches an arXiv RSS feed, diffs it against a JSON archive of
already-posted entries, composes one bounded-length post per new entry
(with byte-offset URL facets), and publishes.  This file gives a shallow
embedding of its pure logic:

* `parse_urls` / `parse_facets` — the regex URL scanner and facet builder
  (paperbot.py lines 36-82), modelled byte-exactly on UTF-8 byte lists.
  The Python regex is
  `[$|\W](https?:\/\/(www\.)?[-a-zA-Z0-9@:%._\+~#=]\x7b1,256\x7d\.[a-zA-Z0-9()]\x7b1,6\x7d\b([-a-zA-Z0-9()@:%_\+.~#?&//=]*[-a-zA-Z0-9@%_\+~#//=])?)`
  executed with `re.finditer` over the UTF-8 encoding of the text; the
  embedding reproduces its greedy backtracking semantics.
* `compose` — the post composer of `main` (lines 239-241).
* `loadArchive`, `newArchive`, `newEntries`, `shouldPersist` — the archive
  read / diff / persist logic of `get_and_write_feed_json` (lines 208-225).
* `mainPosts` — the posting loop of `main` (lines 229-248), including the
  `new_posts == 0 & (len(archive) > 2)` placeholder condition.
-/

/-! ### Byte classes of the URL regex (Python `re`, bytes mode) -/

/-- Python word byte for bytes patterns: `[a-zA-Z0-9_]`. -/
def isWordB (b : Nat) : Bool :=
  (48 ≤ b && b ≤ 57) || (65 ≤ b && b ≤ 90) || (97 ≤ b && b ≤ 122) || b = 95

/-- ASCII letter or digit. -/
def isAlnumB (b : Nat) : Bool :=
  (48 ≤ b && b ≤ 57) || (65 ≤ b && b ≤ 90) || (97 ≤ b && b ≤ 122)

/-- Python `\s` for bytes: space, tab, newline, carriage return, form feed,
vertical tab. -/
def wsB (b : Nat) : Bool :=
  b = 32 || b = 9 || b = 10 || b = 11 || b = 12 || b = 13

/-- The leading class `[$|\W]` of the regex: `$` (36) and `|` (124) are
literal characters inside a class, plus every non-word byte.  (There is no
start-of-string alternative: `$` and `|` lose their metacharacter meaning
inside `[...]`.) -/
def boundB (b : Nat) : Bool :=
  b = 36 || b = 124 || !(isWordB b)

/-- Domain class `[-a-zA-Z0-9@:%._\+~#=]`. -/
def domB (b : Nat) : Bool :=
  isWordB b || b = 45 || b = 64 || b = 58 || b = 37 || b = 46 || b = 43 ||
    b = 126 || b = 35 || b = 61

/-- TLD class `[a-zA-Z0-9()]`. -/
def tldB (b : Nat) : Bool :=
  isAlnumB b || b = 40 || b = 41

/-- Path class `[-a-zA-Z0-9()@:%_\+.~#?&//=]`. -/
def pathB (b : Nat) : Bool :=
  isWordB b || b = 45 || b = 40 || b = 41 || b = 64 || b = 58 || b = 37 ||
    b = 43 || b = 46 || b = 126 || b = 35 || b = 63 || b = 38 || b = 47 || b = 61

/-- Final path-byte class `[-a-zA-Z0-9@%_\+~#//=]` (the "no trailing
punctuation" class: excludes `.` `?` `&` `:` `(` `)`). -/
def endB (b : Nat) : Bool :=
  isWordB b || b = 45 || b = 64 || b = 37 || b = 43 || b = 126 || b = 35 ||
    b = 47 || b = 61

/-! ### The greedy backtracking matcher -/

/-- Length of the maximal run of bytes satisfying `cls` at the head of the
list (how far a greedy character-class quantifier can reach). -/
def run (cls : Nat → Bool) : List Nat → Nat
  | [] => 0
  | b :: t => if cls b then run cls t + 1 else 0

/-- Python `\b` between a previous byte `a` and the rest of the input:
true iff exactly one side is a word byte (end of input counts as non-word). -/
def bdry (a : Nat) (l : List Nat) : Bool :=
  match l with
  | [] => isWordB a
  | b :: _ => isWordB a != isWordB b

/-- Length matched by the optional trailing group
`([-path]*[-end])?` at the head of `l`, under greedy backtracking: the
longest prefix consisting of path bytes whose final byte is an end byte,
or `0` when no such nonempty prefix exists (the group then matches empty). -/
def pathLen : List Nat → Nat
  | [] => 0
  | b :: t =>
    if pathB b then
      if pathLen t ≠ 0 then pathLen t + 1
      else if endB b then 1 else 0
    else 0

/-- Try TLD lengths `m, m-1, ..., 1` (greedy order) for
`[a-zA-Z0-9()]\x7b1,6\x7d\b(path)?`: for the first length whose following
position is a word boundary, return the total consumed from `l`
(TLD plus trailing path group; the optional path group never fails). -/
def tryTld (l : List Nat) : Nat → Option Nat
  | 0 => none
  | m + 1 =>
    match l[m]? with
    | some a =>
      if bdry a (l.drop (m + 1)) then some (m + 1 + pathLen (l.drop (m + 1)))
      else tryTld l m
    | none => tryTld l m

/-- Match `[a-zA-Z0-9()]\x7b1,6\x7d\b(path)?` at the head of `l`. -/
def tldMatch (l : List Nat) : Option Nat :=
  tryTld l (min 6 (run tldB l))

/-- Try domain lengths `k, k-1, ..., 1` (greedy order) for
`[-domain]\x7b1,256\x7d\.[tld]...`: the domain run of length `κ` must be
followed by a literal `.` (byte 46) and a successful TLD match. -/
def tryDom (l : List Nat) : Nat → Option Nat
  | 0 => none
  | k + 1 =>
    if l[k + 1]? = some 46 then
      match tldMatch (l.drop (k + 2)) with
      | some c => some (k + 2 + c)
      | none => tryDom l k
    else tryDom l k

/-- Match `[-domain]\x7b1,256\x7d\.[tld]\x7b1,6\x7d\b(path)?` at the head of `l`. -/
def domMatch (l : List Nat) : Option Nat :=
  tryDom l (min 256 (run domB l))

/-- Match `(www\.)?` followed by the domain part: greedy, so the
`www.` branch is tried first and abandoned if the rest fails. -/
def wwwOpt (l : List Nat) : Option Nat :=
  if l.take 4 = [119, 119, 119, 46] then
    match domMatch (l.drop 4) with
    | some c => some (4 + c)
    | none => domMatch l
  else domMatch l

/-- Match group 1, `https?:\/\/(www\.)?...`, at the head of `l`, returning
the number of bytes consumed.  `https?` needs no backtracking: if the
input starts with `https://` the `s` branch succeeds, and otherwise only
the s-less branch `http://` can apply. -/
def group1 (l : List Nat) : Option Nat :=
  if l.take 8 = [104, 116, 116, 112, 115, 58, 47, 47] then
    (wwwOpt (l.drop 8)).map (· + 8)
  else if l.take 7 = [104, 116, 116, 112, 58, 47, 47] then
    (wwwOpt (l.drop 7)).map (· + 7)
  else none

/-- Whole-pattern match at the head of `l`: one byte of the class `[$|\W]`,
then group 1.  Returns the group-1 length. -/
def matchAt1 (l : List Nat) : Option Nat :=
  match l with
  | [] => none
  | b :: t => if boundB b then group1 t else none

/-- The `re.finditer` scan: try the pattern at each position; on a match emit
the group-1 span `(pos+1, pos+1+len)` (the boundary byte is inside group 0
but outside group 1) and resume at the end of the match.  `pos` is the
absolute offset of the suffix `l`; `fuel` bounds the recursion and is
sufficient whenever `l.length ≤ fuel`. -/
def scanFrom (fuel : Nat) (pos : Nat) (l : List Nat) : List (Nat × Nat) :=
  match fuel with
  | 0 => []
  | fuel + 1 =>
    match l with
    | [] => []
    | b :: t =>
      match matchAt1 (b :: t) with
      | some len => (pos + 1, pos + 1 + len) :: scanFrom fuel (pos + 1 + len) (t.drop len)
      | none => scanFrom fuel (pos + 1) t

/-- A URL span as produced by `parse_urls`: `start`/`stop` are the byte
offsets of group 1 (`stop` is the Python dict key `end`, a reserved word
in Lean), and `url` is `m.group(1)`, i.e. the bytes of the text at
`[start, stop)`. -/
structure URLSpan where
  start : Nat
  stop : Nat
  url : List Nat
deriving DecidableEq, Repr

/-- Function `parse_urls` (paperbot.py lines 36-58) on the UTF-8 bytes of the text. -/
def parse_urls (bs : List Nat) : List URLSpan :=
  (scanFrom (bs.length + 1) 0 bs).map fun se =>
    ⟨se.1, se.2, (bs.drop se.1).take (se.2 - se.1)⟩

/-- UTF-8 bytes of a pure-ASCII string (for ASCII text the UTF-8 encoding
is exactly the list of code points). -/
def asciiBytes (s : String) : List Nat :=
  s.data.map Char.toNat

/-- The tail is empty or starts with a whitespace byte. -/
def WsLead (t : List Nat) : Prop := ∀ b r, t = b :: r → wsB b = true

/-- A byte string is a well-formed URL when the URL group of the regex
matches it in its entirety. -/
def wellFormed (u : List Nat) : Prop := group1 u = some u.length

instance decWellFormed (u : List Nat) : Decidable (wellFormed u) :=
  inferInstanceAs (Decidable (group1 u = some u.length))

/-- Build the text `w0 ++ u1 ++ w1 ++ u2 ++ ... ++ uN ++ wN` from the
whitespace/URL decomposition: each pair is a whitespace run followed by a
URL, and `wLast` is the trailing whitespace. -/
def build : List (List Nat × List Nat) → List Nat → List Nat
  | [], wLast => wLast
  | (w, u) :: rest, wLast => w ++ (u ++ build rest wLast)

/-- The spans `parse_urls` is expected to return on `build pairs wLast`,
with their payloads: one per URL, starting right after its whitespace run. -/
def expURL (pos : Nat) : List (List Nat × List Nat) → List URLSpan
  | [] => []
  | (w, u) :: rest =>
    ⟨pos + w.length, pos + w.length + u.length, u⟩ ::
      expURL (pos + w.length + u.length) rest

/-- The raw `(start, stop)` pairs of `expURL`. -/
def expSpans (pos : Nat) : List (List Nat × List Nat) → List (Nat × Nat)
  | [] => []
  | (w, u) :: rest =>
    (pos + w.length, pos + w.length + u.length) ::
      expSpans (pos + w.length + u.length) rest

/-- A separator has no border when no split point `j` strictly inside it
makes the suffix from `j` equal to the prefix of the complementary
length. -/
def borderFree (sep : List Char) : Prop :=
  ∀ j, j < sep.length → 0 < j → sep.drop j ≠ sep.take (sep.length - j)

instance decBorderFree (sep : List Char) : Decidable (borderFree sep) :=
  inferInstanceAs
    (Decidable (∀ j, j < sep.length → 0 < j → sep.drop j ≠ sep.take (sep.length - j)))


/-! ### Facet builder (paperbot.py lines 61-82) -/

/-- The `index` object of a facet: byte offsets copied from the span. -/
structure FacetIndex where
  byteStart : Nat
  byteEnd : Nat
deriving DecidableEq, Repr

/-- One `app.bsky.richtext.facet#link` feature.  `ftype` stands for the
JSON key `$type`; the canonical identifier field is named `uri` — not
`url` — exactly as in the source (`# NOTE: URI ("I") not URL ("L")`). -/
structure LinkFeature where
  ftype : String
  uri : List Nat
deriving DecidableEq, Repr

/-- One facet record: `index` plus a singleton `features` list. -/
structure Facet where
  index : FacetIndex
  features : List LinkFeature
deriving DecidableEq, Repr

/-- Function `parse_facets`: one facet per URL span, in scanner order. -/
def parse_facets (bs : List Nat) : List Facet :=
  (parse_urls bs).map fun u =>
    ⟨⟨u.start, u.stop⟩, [⟨"app.bsky.richtext.facet#link", u.url⟩]⟩

/-! ### Post composer (paperbot.py lines 239-241)

Line 240 builds the f-string of title, newline, link, newline, and the
stripped text after the final occurrence of the separator
`Abstract:` in the description, truncates it with the slice `[:293]`
(code points), and appends the constant suffix `...📈🤖`.  The
`join` call over an empty separator is the identity on strings, and the
Python `split` method cuts at every left-to-right non-overlapping
occurrence of the separator, so the final segment is the text after the
rightmost occurrence (the whole string when the separator is absent). -/

/-- The literal separator `"Abstract:"`. -/
def marker : List Char := "Abstract:".data

/-- Python `str.strip()` whitespace (the ASCII whitespace characters;
arXiv descriptions contain no exotic Unicode spacing). -/
def isSpaceC (c : Char) : Bool :=
  c = ' ' || c = '\t' || c = '\n' || c = '\r' || c = '\x0b' || c = '\x0c'

/-- Python `str.strip()`: drop whitespace from both ends. -/
def pyStrip (l : List Char) : List Char :=
  ((l.dropWhile isSpaceC).reverse.dropWhile isSpaceC).reverse

/-- The remainder after the first occurrence of `sep` in `l`
(`none` when `sep` does not occur).  Scans left to right. -/
def afterFirst (sep : List Char) : List Char → Option (List Char)
  | [] => none
  | c :: t => if sep.isPrefixOf (c :: t) then some ((c :: t).drop sep.length) else afterFirst sep t

/-- Iterate `afterFirst` to exhaustion: the segment after the last
left-to-right non-overlapping occurrence of `sep`, i.e. Python
`l.split(sep)[-1]`.  `fuel ≥ l.length` suffices since each step removes
at least one character. -/
def lastSegF (sep : List Char) : Nat → List Char → List Char
  | 0, l => l
  | fuel + 1, l =>
    match afterFirst sep l with
    | some r => lastSegF sep fuel r
    | none => l

/-- Python `l.split(sep)[-1]` for nonempty `sep`. -/
def lastSeg (sep l : List Char) : List Char :=
  lastSegF sep l.length l

/-- The abstract fragment of a description: the Python expression
of line 240 that splits on the marker, keeps the final segment, and
strips it. -/
def fragment (d : List Char) : List Char :=
  pyStrip (lastSeg marker d)

/-- The constant suffix `"...📈🤖"`: a 3-character ellipsis `...` plus the
two emoji `📈` and `🤖` (5 code points in total). -/
def postSuffix : List Char := "...📈🤖".data

/-- The post composer: the f-string truncated to 293 characters, then the
constant suffix, appended unconditionally. -/
def compose (title link desc : List Char) : List Char :=
  (title ++ ('\n' :: (link ++ ('\n' :: fragment desc)))).take 293 ++ postSuffix

/-! ### Archive diff and persistence (paperbot.py lines 208-225) -/

/-- Keys of an association-list dict, in insertion order. -/
def keysOf {α β : Type} (d : List (α × β)) : List α := d.map Prod.fst

/-- Python dict lookup on the association-list model. -/
def alookup {α β : Type} [DecidableEq α] (k : α) : List (α × β) → Option β
  | [] => none
  | kv :: t => if kv.1 = k then some kv.2 else alookup k t

/-- Python `d[k] = v` on the association-list model: update in place when
the key exists, otherwise append (dicts preserve insertion order). -/
def dinsert {α β : Type} [DecidableEq α] (d : List (α × β)) (k : α) (v : β) : List (α × β) :=
  if k ∈ keysOf d then d.map (fun kv => if kv.1 = k then (k, v) else kv) else d ++ [(k, v)]

/-- The `new_archive` built by `get_and_write_feed_json`:
start from a copy of the archive and add every fetched entry whose key is
not in the (original) archive. -/
def newArchive {α β : Type} [DecidableEq α] (feed archive : List (α × β)) : List (α × β) :=
  feed.foldl (fun acc kv => if kv.1 ∈ keysOf archive then acc else dinsert acc kv.1 kv.2) archive

/-- The guard `len(new_archive) > len(archive)` whether the
archive file is rewritten. -/
def shouldPersist {α β : Type} [DecidableEq α] (feed archive : List (α × β)) : Bool :=
  archive.length < (newArchive feed archive).length

/-- The new entries processed by the loop of `main` (`if k not in archive`),
in feed iteration order. -/
def newEntries {α β : Type} [DecidableEq α] (feed archive : List (α × β)) : List (α × β) :=
  feed.filter fun kv => decide (kv.1 ∉ keysOf archive)

/-- The three observable states of the archive file for lines 210-214. -/
inductive ArchiveFile (α : Type) where
  | absent
  | corrupt
  | stored (a : α)

/-- The archive-read step of `get_and_write_feed_json` (lines 210-214):
`open` raises `FileNotFoundError` on an absent file, which the
`except FileNotFoundError` arm turns into the empty dict; `json.load`
raises `json.JSONDecodeError` on unparseable content, which no handler
catches, so it propagates; otherwise the parsed archive is returned. -/
def loadArchive {α : Type} : ArchiveFile (List α) → Except String (List α)
  | .absent => .ok []
  | .corrupt => .error "json.JSONDecodeError"
  | .stored a => .ok a

/-! ### The posting loop of `main` (paperbot.py lines 229-248) -/

/-- A stored feed entry (the values of the feed / archive dicts). -/
structure Entry where
  title : List Char
  link : List Char
  description : List Char
deriving DecidableEq

/-- State after the loop of `main`: texts passed to `create_post` (in call
order), the mutated archive dict, and the `new_posts` counter. -/
structure LoopOut (α : Type) where
  posts : List (List Char)
  arch : List (α × Entry)
  newPosts : Nat

/-- The loop of `main` over the fetched entries: for each key not in the
(mutating) archive, post the composed text, add the entry to the archive
and bump `new_posts`.  (The `time.sleep` between posts has no observable
effect on the produced data.) -/
def loopState {α : Type} [DecidableEq α] (pull archive : List (α × Entry)) : LoopOut α :=
  pull.foldl
    (fun st kv =>
      if kv.1 ∈ keysOf st.arch then st
      else
        { posts := st.posts ++ [compose kv.2.title kv.2.link kv.2.description]
          arch := dinsert st.arch kv.1 kv.2
          newPosts := st.newPosts + 1 })
    ⟨[], archive, 0⟩

/-- The guard of the placeholder post, literally
`new_posts == 0 & (len(archive) > 2)`.  In Python `&` binds tighter than
`==`, and `int & bool` coerces the bool to `1`/`0`, so this is
`new_posts == (0 & (1 if len(archive) > 2 else 0))`. -/
def pyCond (newPosts archiveLen : Nat) : Bool :=
  newPosts == Nat.land 0 (if 2 < archiveLen then 1 else 0)

/-- The placeholder text, `"No new papers today! 📈🤖"`. -/
def placeholderStr : List Char := "No new papers today! 📈🤖".data

/-- Every text posted by one run of `main`, in order: the per-entry posts,
then the placeholder when the guard fires. -/
def mainPosts {α : Type} [DecidableEq α] (pull archive : List (α × Entry)) : List (List Char) :=
  (loopState pull archive).posts ++
    (if pyCond (loopState pull archive).newPosts (loopState pull archive).arch.length
     then [placeholderStr] else [])


/-! ### Whitespace-tail invariance of the matcher

The matcher lemmas below show that appending a tail whose first byte is
whitespace (or appending nothing) never changes the result of a match
attempt: whitespace bytes belong to none of the regex character classes,
so every greedy run, literal test and word-boundary test stops at or
before the whitespace. -/


lemma wsLead_nil : WsLead ([] : List Nat) := by
  intro b r h
  cases h

lemma wsLead_cons {b : Nat} {r : List Nat} (h : wsB b = true) : WsLead (b :: r) := by
  intro c s hc
  cases hc
  exact h

lemma wsB_cases {b : Nat} (h : wsB b = true) :
    b = 32 ∨ b = 9 ∨ b = 10 ∨ b = 11 ∨ b = 12 ∨ b = 13 := by
  simpa [wsB, or_assoc] using h

lemma ws_not_word {b : Nat} (h : wsB b = true) : isWordB b = false := by
  rcases wsB_cases h with h | h | h | h | h | h <;> subst h <;> decide

lemma ws_not_dom {b : Nat} (h : wsB b = true) : domB b = false := by
  rcases wsB_cases h with h | h | h | h | h | h <;> subst h <;> decide

lemma ws_not_tld {b : Nat} (h : wsB b = true) : tldB b = false := by
  rcases wsB_cases h with h | h | h | h | h | h <;> subst h <;> decide

lemma ws_not_path {b : Nat} (h : wsB b = true) : pathB b = false := by
  rcases wsB_cases h with h | h | h | h | h | h <;> subst h <;> decide

lemma ws_ne_dot {b : Nat} (h : wsB b = true) : b ≠ 46 := by
  rcases wsB_cases h with h | h | h | h | h | h <;> subst h <;> decide

lemma ws_ne_h {b : Nat} (h : wsB b = true) : b ≠ 104 := by
  rcases wsB_cases h with h | h | h | h | h | h <;> subst h <;> decide

lemma ws_bound {b : Nat} (h : wsB b = true) : boundB b = true := by
  simp [boundB, ws_not_word h]

lemma drop_append_le {α : Type} (u t : List α) :
    ∀ n, n ≤ u.length → (u ++ t).drop n = u.drop n ++ t := by
  induction u with
  | nil =>
    intro n h
    have : n = 0 := Nat.le_zero.mp h
    subst this
    rfl
  | cons a u ih =>
    intro n h
    cases n with
    | zero => rfl
    | succ n => simpa using ih n (Nat.le_of_succ_le_succ h)

lemma getq_append_lt {α : Type} (u t : List α) :
    ∀ n, n < u.length → (u ++ t)[n]? = u[n]? := by
  induction u with
  | nil =>
    intro n h
    exact absurd h (Nat.not_lt_zero n)
  | cons a u ih =>
    intro n h
    cases n with
    | zero => simp
    | succ n => simpa using ih n (Nat.lt_of_succ_lt_succ h)

lemma run_le_length (cls : Nat → Bool) : ∀ l, run cls l ≤ l.length := by
  intro l
  induction l with
  | nil => exact Nat.le_refl 0
  | cons b t ih =>
    by_cases h : cls b = true
    · simpa [run, h] using Nat.succ_le_succ ih
    · simp [run, h]

lemma run_append_ws (cls : Nat → Bool) (hcls : ∀ b, wsB b = true → cls b = false)
    (u t : List Nat) (ht : WsLead t) : run cls (u ++ t) = run cls u := by
  induction u with
  | nil =>
    cases t with
    | nil => rfl
    | cons b r => simp [run, hcls b (ht b r rfl)]
  | cons a u ih =>
    by_cases h : cls a = true <;> simp [run, h, ih]

lemma pathLen_append (u t : List Nat) (ht : WsLead t) : pathLen (u ++ t) = pathLen u := by
  induction u with
  | nil =>
    cases t with
    | nil => rfl
    | cons b r => simp [pathLen, ws_not_path (ht b r rfl)]
  | cons a u ih =>
    simp only [List.cons_append, pathLen, List.append_eq, ih]

lemma bdry_append (a : Nat) (u t : List Nat) (ht : WsLead t) : bdry a (u ++ t) = bdry a u := by
  cases u with
  | cons b r => rfl
  | nil =>
    cases t with
    | nil => rfl
    | cons b r =>
      simp [bdry, ws_not_word (ht b r rfl)]

lemma tryTld_append (u t : List Nat) (ht : WsLead t) :
    ∀ n, n ≤ u.length → tryTld (u ++ t) n = tryTld u n := by
  intro n
  induction n with
  | zero => intro _; rfl
  | succ m ih =>
    intro h
    have hm : m < u.length := Nat.lt_of_succ_le h
    have hget : (u ++ t)[m]? = u[m]? := getq_append_lt u t m hm
    have hdrop : (u ++ t).drop (m + 1) = u.drop (m + 1) ++ t := drop_append_le u t (m + 1) h
    simp only [tryTld, hget, hdrop, bdry_append _ _ t ht, pathLen_append _ t ht]
    cases hu : u[m]? with
    | none => exact ih (Nat.le_of_lt hm)
    | some a =>
      by_cases hb : bdry a (u.drop (m + 1)) = true
      · simp [hb]
      · simp [hb, ih (Nat.le_of_lt hm)]

lemma tldMatch_append (u t : List Nat) (ht : WsLead t) : tldMatch (u ++ t) = tldMatch u := by
  unfold tldMatch
  rw [run_append_ws tldB (fun b hb => ws_not_tld hb) u t ht]
  exact tryTld_append u t ht _ (Nat.le_trans (Nat.min_le_right _ _) (run_le_length tldB u))

lemma tryDom_append (u t : List Nat) (ht : WsLead t) :
    ∀ n, n ≤ u.length → tryDom (u ++ t) n = tryDom u n := by
  intro n
  induction n with
  | zero => intro _; rfl
  | succ k ih =>
    intro h
    rcases Nat.lt_or_ge (k + 1) u.length with hk | hk
    · have hget : (u ++ t)[k + 1]? = u[k + 1]? := getq_append_lt u t (k + 1) hk
      have hdrop : (u ++ t).drop (k + 2) = u.drop (k + 2) ++ t := drop_append_le u t (k + 2) hk
      simp only [tryDom, hget, hdrop, tldMatch_append _ t ht]
      by_cases hc : u[k + 1]? = some 46
      · simp only [if_pos hc]
        cases tldMatch (u.drop (k + 2)) with
        | none => exact ih (Nat.le_of_succ_le h)
        | some c => rfl
      · simp only [if_neg hc]
        exact ih (Nat.le_of_succ_le h)
    · have hk2 : u.length = k + 1 := Nat.le_antisymm hk h
      have hr : u[k + 1]? = none := List.getElem?_eq_none (Nat.le_of_eq hk2)
      have hl : ¬(u ++ t)[k + 1]? = some 46 := by
        cases t with
        | nil => simp [hr]
        | cons b r =>
          have hb : (u ++ b :: r)[k + 1]? = some b := by
            rw [List.getElem?_append_right (Nat.le_of_eq hk2)]
            simp [hk2]
          rw [hb]
          intro hcontra
          exact ws_ne_dot (ht b r rfl) (by injection hcontra)
      simp only [tryDom, if_neg hl, if_neg (hr ▸ (by simp : ¬(none : Option Nat) = some 46))]
      exact ih (Nat.le_of_succ_le h)

lemma domMatch_append (u t : List Nat) (ht : WsLead t) : domMatch (u ++ t) = domMatch u := by
  unfold domMatch
  rw [run_append_ws domB (fun b hb => ws_not_dom hb) u t ht]
  exact tryDom_append u t ht _ (Nat.le_trans (Nat.min_le_right _ _) (run_le_length domB u))

/-- A literal prefix containing no whitespace byte matches across a
whitespace-led append iff it already matches the first list. -/
lemma take_append_lit :
    ∀ (p u t : List Nat), WsLead t → (∀ c ∈ p, wsB c = false) →
      ((u ++ t).take p.length = p ↔ u.take p.length = p) := by
  intro p
  induction p with
  | nil => intro u t _ _; simp
  | cons c p ih =>
    intro u t ht hp
    cases u with
    | nil =>
      cases t with
      | nil => simp
      | cons b r =>
        simp only [List.nil_append, List.length_cons, List.take_succ_cons, List.take_nil]
        constructor
        · intro hcontra
          have hb : b = c := by injection hcontra
          have : wsB c = false := hp c (by simp)
          rw [hb] at ht
          rw [ht c r rfl] at this
          cases this
        · intro hcontra
          cases hcontra
    | cons a u =>
      simp only [List.cons_append, List.length_cons, List.take_succ_cons, List.cons.injEq]
      constructor
      · rintro ⟨rfl, htail⟩
        exact ⟨rfl, (ih u t ht (fun d hd => hp d (by simp [hd]))).mp htail⟩
      · rintro ⟨rfl, htail⟩
        exact ⟨rfl, (ih u t ht (fun d hd => hp d (by simp [hd]))).mpr htail⟩

lemma take_lit_le_length {u p : List Nat} {n : Nat} (h : u.take n = p)
    (hn : p.length = n) : n ≤ u.length := by
  have := congrArg List.length h
  rw [List.length_take, hn] at this
  omega

lemma wwwOpt_append (u t : List Nat) (ht : WsLead t) : wwwOpt (u ++ t) = wwwOpt u := by
  unfold wwwOpt
  have hlit := take_append_lit [119, 119, 119, 46] u t ht (by decide)
  simp only [List.length_cons, List.length_nil] at hlit
  by_cases hw : u.take 4 = [119, 119, 119, 46]
  · have h4 : 4 ≤ u.length := take_lit_le_length hw (by decide)
    rw [if_pos (hlit.mpr hw), if_pos hw, drop_append_le u t 4 h4,
      domMatch_append _ t ht, domMatch_append _ t ht]
  · rw [if_neg (fun hc => hw (hlit.mp hc)), if_neg hw, domMatch_append _ t ht]

lemma group1_append (u t : List Nat) (ht : WsLead t) : group1 (u ++ t) = group1 u := by
  unfold group1
  have hlit8 := take_append_lit [104, 116, 116, 112, 115, 58, 47, 47] u t ht (by decide)
  have hlit7 := take_append_lit [104, 116, 116, 112, 58, 47, 47] u t ht (by decide)
  simp only [List.length_cons, List.length_nil] at hlit8 hlit7
  by_cases h8 : u.take 8 = [104, 116, 116, 112, 115, 58, 47, 47]
  · have hle : 8 ≤ u.length := take_lit_le_length h8 (by decide)
    rw [if_pos (hlit8.mpr h8), if_pos h8, drop_append_le u t 8 hle, wwwOpt_append _ t ht]
  · rw [if_neg (fun hc => h8 (hlit8.mp hc)), if_neg h8]
    by_cases h7 : u.take 7 = [104, 116, 116, 112, 58, 47, 47]
    · have hle : 7 ≤ u.length := take_lit_le_length h7 (by decide)
      rw [if_pos (hlit7.mpr h7), if_pos h7, drop_append_le u t 7 hle, wwwOpt_append _ t ht]
    · rw [if_neg (fun hc => h7 (hlit7.mp hc)), if_neg h7]


lemma group1_wf_append {u t : List Nat} (ht : WsLead t) (hwf : wellFormed u) :
    group1 (u ++ t) = some u.length := by
  rw [group1_append u t ht]
  exact hwf

lemma wf_pos {u : List Nat} (hwf : wellFormed u) : 0 < u.length := by
  cases u with
  | nil => exact absurd hwf (by decide)

  | cons b r => simp

/-! ### Scanning structured whitespace/URL texts -/

lemma scan_nil (fuel pos : Nat) : scanFrom fuel pos [] = [] := by
  cases fuel <;> rfl

lemma group1_head_ne {b : Nat} (r : List Nat) (h : b ≠ 104) : group1 (b :: r) = none := by
  have e8 : (b :: r).take 8 = b :: r.take 7 := rfl
  have e7 : (b :: r).take 7 = b :: r.take 6 := rfl
  unfold group1
  rw [e8, e7, if_neg, if_neg]
  · intro hc
    exact h (by injection hc)
  · intro hc
    exact h (by injection hc)

lemma group1_ws (t : List Nat) (ht : ∀ b ∈ t, wsB b = true) : group1 t = none := by
  cases t with
  | nil => decide
  | cons b r => exact group1_head_ne r (ws_ne_h (ht b (by simp)))

lemma matchAt1_ws_head {b : Nat} (t : List Nat) (hb : wsB b = true) :
    matchAt1 (b :: t) = group1 t := by
  simp [matchAt1, ws_bound hb]

lemma scan_all_ws : ∀ fuel pos (w : List Nat), (∀ b ∈ w, wsB b = true) →
    scanFrom fuel pos w = [] := by
  intro fuel
  induction fuel with
  | zero => intro pos w _; rfl
  | succ fuel ih =>
    intro pos w hw
    cases w with
    | nil => rfl
    | cons b t =>
      have hm : matchAt1 (b :: t) = none := by
        rw [matchAt1_ws_head t (hw b (by simp))]
        exact group1_ws t (fun c hc => hw c (by simp [hc]))
      simp only [scanFrom, hm]
      exact ih (pos + 1) t (fun c hc => hw c (by simp [hc]))

/-- Scanning a nonempty whitespace run followed by `z`: the positions
inside the run fail (the byte after the boundary is whitespace, never
`h`), and at the last whitespace byte the pattern matches exactly when
group 1 matches at the head of `z`. -/
lemma scan_ws_match : ∀ (w : List Nat) fuel pos (z : List Nat) len, w ≠ [] →
    (∀ b ∈ w, wsB b = true) → group1 z = some len → w.length + z.length ≤ fuel →
    scanFrom fuel pos (w ++ z) =
      (pos + w.length, pos + w.length + len) ::
        scanFrom (fuel - w.length) (pos + w.length + len) (z.drop len) := by
  intro w
  induction w with
  | nil => intro fuel pos z len hne; exact absurd rfl hne
  | cons b w ih =>
    intro fuel pos z len _ hws hz hfuel
    cases fuel with
    | zero => exact absurd hfuel (by simp)
    | succ fuel =>
      cases w with
      | nil =>
        have hm : matchAt1 (b :: z) = some len := by
          rw [matchAt1_ws_head z (hws b (by simp))]
          exact hz
        simp only [List.cons_append, List.nil_append, scanFrom, hm]
        simp [Nat.add_comm]
      | cons c w =>
        have hm : matchAt1 (b :: c :: (w ++ z)) = none := by
          rw [matchAt1_ws_head _ (hws b (by simp))]
          exact group1_head_ne _ (ws_ne_h (hws c (by simp)))
        simp only [List.cons_append, scanFrom, hm]
        have ihr := ih fuel (pos + 1) z len (by simp) (fun d hd => hws d (by simp [hd])) hz
          (by simp only [List.length_cons] at hfuel ⊢; omega)
        simp only [List.cons_append] at ihr
        rw [ihr]
        simp only [List.length_cons]
        have e1 : pos + 1 + (w.length + 1) = pos + (w.length + 1 + 1) := by omega
        have e2 : fuel - (w.length + 1) = fuel + 1 - (w.length + 1 + 1) := by omega
        rw [e1, e2]


lemma build_wsLead (rest : List (List Nat × List Nat)) (wLast : List Nat)
    (hp : ∀ p ∈ rest, p.1 ≠ [] ∧ ∀ b ∈ p.1, wsB b = true)
    (hws : ∀ b ∈ wLast, wsB b = true) : WsLead (build rest wLast) := by
  cases rest with
  | nil =>
    intro b r hb
    exact hws b (by rw [show build [] wLast = wLast from rfl] at hb; simp [hb])
  | cons p rest =>
    obtain ⟨w, u⟩ := p
    obtain ⟨hne, hw⟩ := hp (w, u) (by simp)
    cases w with
    | nil => exact absurd rfl hne
    | cons c w =>
      intro b r hb
      have he : build ((c :: w, u) :: rest) wLast = c :: (w ++ (u ++ build rest wLast)) := rfl
      rw [he] at hb
      cases hb
      exact hw c (by simp)

lemma scan_build : ∀ (pairs : List (List Nat × List Nat)) (wLast : List Nat) fuel pos,
    (∀ p ∈ pairs, p.1 ≠ [] ∧ (∀ b ∈ p.1, wsB b = true) ∧ wellFormed p.2) →
    (∀ b ∈ wLast, wsB b = true) →
    (build pairs wLast).length ≤ fuel →
    scanFrom fuel pos (build pairs wLast) = expSpans pos pairs := by
  intro pairs
  induction pairs with
  | nil =>
    intro wLast fuel pos _ hws _
    exact scan_all_ws fuel pos wLast hws
  | cons p rest ih =>
    obtain ⟨w, u⟩ := p
    intro wLast fuel pos hp hws hfuel
    obtain ⟨hne, hw, hwf⟩ := hp (w, u) (by simp)
    have htail : WsLead (build rest wLast) :=
      build_wsLead rest wLast (fun q hq => ⟨(hp q (by simp [hq])).1, (hp q (by simp [hq])).2.1⟩) hws
    have hz : group1 (u ++ build rest wLast) = some u.length := group1_wf_append htail hwf
    have hbuild : build ((w, u) :: rest) wLast = w ++ (u ++ build rest wLast) := rfl
    rw [hbuild] at hfuel ⊢
    have hlen : w.length + (u ++ build rest wLast).length ≤ fuel := by
      simpa [List.length_append] using hfuel
    rw [scan_ws_match w fuel pos (u ++ build rest wLast) u.length hne hw hz hlen]
    rw [show (u ++ build rest wLast).drop u.length = build rest wLast from List.drop_left u _]
    show _ = expSpans pos ((w, u) :: rest)
    rw [show expSpans pos ((w, u) :: rest) =
      (pos + w.length, pos + w.length + u.length) ::
        expSpans (pos + w.length + u.length) rest from rfl]
    congr 1
    apply ih wLast (fuel - w.length) (pos + w.length + u.length)
      (fun q hq => hp q (by simp [hq])) hws
    have : (build rest wLast).length ≤ fuel - w.length := by
      have := hfuel
      simp [List.length_append] at this
      omega
    exact this

lemma slice_exp : ∀ (pairs : List (List Nat × List Nat)) (wLast pre bs : List Nat) (pos : Nat),
    bs = pre ++ build pairs wLast → pre.length = pos →
    (expSpans pos pairs).map
        (fun se => (⟨se.1, se.2, (bs.drop se.1).take (se.2 - se.1)⟩ : URLSpan)) =
      expURL pos pairs := by
  intro pairs
  induction pairs with
  | nil => intro _ _ _ _ _ _; rfl
  | cons p rest ih =>
    obtain ⟨w, u⟩ := p
    intro wLast pre bs pos hbs hpos
    have hassoc : bs = (pre ++ w) ++ (u ++ build rest wLast) := by
      rw [hbs]
      simp [build, List.append_assoc]
    have hdrop : bs.drop (pos + w.length) = u ++ build rest wLast := by
      rw [hassoc]
      exact List.drop_left' (by simp [hpos])
    have hsub : pos + w.length + u.length - (pos + w.length) = u.length := by omega
    show (⟨pos + w.length, pos + w.length + u.length,
        (bs.drop (pos + w.length)).take (pos + w.length + u.length - (pos + w.length))⟩ : URLSpan) ::
        (expSpans (pos + w.length + u.length) rest).map
          (fun se => (⟨se.1, se.2, (bs.drop se.1).take (se.2 - se.1)⟩ : URLSpan)) =
      ⟨pos + w.length, pos + w.length + u.length, u⟩ ::
        expURL (pos + w.length + u.length) rest
    rw [hdrop, hsub, List.take_left]
    congr 1
    apply ih wLast (pre ++ (w ++ u)) bs (pos + w.length + u.length)
    · rw [hassoc]
      simp [List.append_assoc]
    · simp [hpos]
      omega

lemma parse_urls_slice (bs : List Nat) (s : URLSpan) (hs : s ∈ parse_urls bs) :
    (bs.drop s.start).take (s.stop - s.start) = s.url := by
  unfold parse_urls at hs
  rcases List.mem_map.mp hs with ⟨se, _, rfl⟩
  rfl

lemma scan_start_ge : ∀ fuel pos (l : List Nat) se, se ∈ scanFrom fuel pos l →
    pos + 1 ≤ se.1 := by
  intro fuel
  induction fuel with
  | zero => intro pos l se h; simp [scanFrom] at h
  | succ fuel ih =>
    intro pos l se h
    cases l with
    | nil => simp [scanFrom] at h
    | cons b t =>
      simp only [scanFrom] at h
      cases hm : matchAt1 (b :: t) with
      | some len =>
        rw [hm] at h
        rcases List.mem_cons.mp h with h | h
        · rw [h]
        · have := ih (pos + 1 + len) (t.drop len) se h
          omega
      | none =>
        rw [hm] at h
        have := ih (pos + 1) t se h
        omega

lemma expURL_length : ∀ (pairs : List (List Nat × List Nat)) pos,
    (expURL pos pairs).length = pairs.length := by
  intro pairs
  induction pairs with
  | nil => intro _; rfl
  | cons p rest ih =>
    obtain ⟨w, u⟩ := p
    intro pos
    simp [expURL, ih]

lemma expURL_lb : ∀ (pairs : List (List Nat × List Nat)) pos s, s ∈ expURL pos pairs →
    pos ≤ s.start := by
  intro pairs
  induction pairs with
  | nil => intro pos s h; simp [expURL] at h
  | cons p rest ih =>
    obtain ⟨w, u⟩ := p
    intro pos s h
    rcases List.mem_cons.mp h with h | h
    · rw [h]
      simp
    · have := ih (pos + w.length + u.length) s h
      omega

lemma expURL_sorted : ∀ (pairs : List (List Nat × List Nat)) pos,
    (∀ p ∈ pairs, 0 < p.2.length) →
    List.Pairwise (fun s₁ s₂ => s₁.start < s₂.start) (expURL pos pairs) := by
  intro pairs
  induction pairs with
  | nil => intro _ _; exact List.Pairwise.nil
  | cons p rest ih =>
    obtain ⟨w, u⟩ := p
    intro pos hp
    refine List.Pairwise.cons ?_ (ih _ (fun q hq => hp q (by simp [hq])))
    intro s hs
    have h1 := expURL_lb rest (pos + w.length + u.length) s hs
    have h2 : 0 < u.length := hp (w, u) (by simp)
    show pos + w.length < s.start
    omega

lemma parse_urls_build (pairs : List (List Nat × List Nat)) (wLast : List Nat)
    (hp : ∀ p ∈ pairs, p.1 ≠ [] ∧ (∀ b ∈ p.1, wsB b = true) ∧ wellFormed p.2)
    (hws : ∀ b ∈ wLast, wsB b = true) :
    parse_urls (build pairs wLast) = expURL 0 pairs := by
  unfold parse_urls
  rw [scan_build pairs wLast ((build pairs wLast).length + 1) 0 hp hws (Nat.le_succ _)]
  exact slice_exp pairs wLast [] (build pairs wLast) 0 rfl rfl

/-- Claim C1 (corrected / amended form).  For every text decomposed as
`w0 u1 w1 u2 ... uN wN` — each `ui` a well-formed URL, each `wi` (for
`i < N`) a nonempty whitespace run, `wN` possibly empty whitespace — the
scanner returns exactly `N` spans, in strictly increasing start order,
the i-th span covering exactly `ui`, and slicing the byte string at
`[start, stop)` reproduces the url field of each span.  (The original claim, with
no whitespace required before the first URL, is refuted by
`C1_counterexample`: a URL at offset 0 is skipped because the regex
demands a preceding boundary byte.) -/
theorem C1_urls_ws_separated (pairs : List (List Nat × List Nat)) (wLast : List Nat)
    (hp : ∀ p ∈ pairs, p.1 ≠ [] ∧ (∀ b ∈ p.1, wsB b = true) ∧ wellFormed p.2)
    (hws : ∀ b ∈ wLast, wsB b = true) :
    parse_urls (build pairs wLast) = expURL 0 pairs ∧
    (parse_urls (build pairs wLast)).length = pairs.length ∧
    List.Pairwise (fun s₁ s₂ => s₁.start < s₂.start) (parse_urls (build pairs wLast)) ∧
    ∀ s ∈ parse_urls (build pairs wLast),
      ((build pairs wLast).drop s.start).take (s.stop - s.start) = s.url := by
  have hmain := parse_urls_build pairs wLast hp hws
  refine ⟨hmain, ?_, ?_, ?_⟩
  · rw [hmain]
    exact expURL_length pairs 0
  · rw [hmain]
    exact expURL_sorted pairs 0 (fun p hmem => wf_pos (hp p hmem).2.2)
  · intro s hs
    exact parse_urls_slice _ s hs

theorem C1_witness :
    (∀ p ∈ [(([32] : List Nat), asciiBytes "http://a.com"),
            (([10, 32] : List Nat), asciiBytes "https://www.b.org/x")],
        p.1 ≠ [] ∧ (∀ b ∈ p.1, wsB b = true) ∧ wellFormed p.2) ∧
    parse_urls (build [([32], asciiBytes "http://a.com"),
                       ([10, 32], asciiBytes "https://www.b.org/x")] [32]) =
      [⟨1, 13, asciiBytes "http://a.com"⟩, ⟨15, 34, asciiBytes "https://www.b.org/x"⟩] := by
  constructor
  · decide
  · rw [(C1_urls_ws_separated
      [([32], asciiBytes "http://a.com"), ([10, 32], asciiBytes "https://www.b.org/x")]
      [32] (by decide) (by decide)).1]
    decide

/-- Counterexample to claim C1 as stated: the text
`"http://a.com http://b.org"` consists of two well-formed URLs separated
by whitespace, yet the scanner returns a single span — the URL at offset
0 has no preceding boundary byte and is not matched. -/
theorem C1_counterexample :
    asciiBytes "http://a.com http://b.org" =
      asciiBytes "http://a.com" ++ [32] ++ asciiBytes "http://b.org" ∧
    wellFormed (asciiBytes "http://a.com") ∧
    wellFormed (asciiBytes "http://b.org") ∧
    (parse_urls (asciiBytes "http://a.com http://b.org")).length = 1 ∧
    ¬(parse_urls (asciiBytes "http://a.com http://b.org")).length = 2 := by
  refine ⟨by decide, by decide, by decide, ?_, ?_⟩ <;> decide

/-- Claim C2 (corrected / amended form).  The pattern requires one
leading byte of the class `[$|\W]` — a literal `$`, a literal `|`, or
any non-word byte — before the scheme; the boundary byte is consumed by
the match (the scan resumes after it) but excluded from the returned
span, which starts at the scheme.  There is no start-of-string
alternative, so every returned span starts at offset 1 or later, and a
well-formed URL preceded by a single boundary byte is returned as the
sole span.  (The original claim that a URL at offset 0 is still matched
is refuted by `C2_counterexample`.) -/
theorem C2_boundary_required (b : Nat) (u : List Nat) (hb : boundB b = true)
    (hu : wellFormed u) :
    parse_urls (b :: u) = [⟨1, 1 + u.length, u⟩] ∧
    ∀ (bs : List Nat) (s : URLSpan), s ∈ parse_urls bs → 1 ≤ s.start := by
  constructor
  · have hm : matchAt1 (b :: u) = some u.length := by
      simp [matchAt1, hb]
      exact hu
    have hscan : scanFrom ((b :: u).length + 1) 0 (b :: u) = [(1, 1 + u.length)] := by
      rw [show scanFrom ((b :: u).length + 1) 0 (b :: u) =
        (match matchAt1 (b :: u) with
         | some len => (1, 1 + len) :: scanFrom (u.length + 1) (1 + len) (u.drop len)
         | none => scanFrom (u.length + 1) 1 u) from rfl]
      rw [hm]
      show (1, 1 + u.length) :: scanFrom (u.length + 1) (1 + u.length) (u.drop u.length) =
        [(1, 1 + u.length)]
      rw [List.drop_length, scan_nil]
    unfold parse_urls
    rw [hscan]
    simp
  · intro bs s hs
    unfold parse_urls at hs
    rcases List.mem_map.mp hs with ⟨se, hse, rfl⟩
    exact scan_start_ge _ 0 bs se hse

theorem C2_witness :
    boundB 36 = true ∧ wellFormed (asciiBytes "http://a.com") ∧
    parse_urls (36 :: asciiBytes "http://a.com") =
      [⟨1, 1 + (asciiBytes "http://a.com").length, asciiBytes "http://a.com"⟩] := by
  exact ⟨by decide, by decide,
    (C2_boundary_required 36 (asciiBytes "http://a.com") (by decide) (by decide)).1⟩

/-- Counterexample to claim C2 as stated: `"http://a.com"` is a
well-formed URL at offset 0, but the scanner returns no span at all —
there is no start-of-string sentinel in the leading class `[$|\W]`. -/
theorem C2_counterexample :
    wellFormed (asciiBytes "http://a.com") ∧
    parse_urls (asciiBytes "http://a.com") = [] := by
  constructor <;> decide

/-- Claim C9 (confirmed).  The final path byte must belong to a class
that excludes `.` (and `?`, `&`, `:`, parentheses), so a URL ending a
sentence does not absorb the period: on
`"see http://a.com/x. also http://b.org"` the first span is exactly
`http://a.com/x` (bytes 4 to 18, stopping before the period at byte 18),
and the second is `http://b.org`. -/
theorem C9_trailing_punctuation :
    endB 46 = false ∧
    parse_urls (asciiBytes "see http://a.com/x. also http://b.org") =
      [⟨4, 18, asciiBytes "http://a.com/x"⟩, ⟨25, 37, asciiBytes "http://b.org"⟩] ∧
    (asciiBytes "see http://a.com/x. also http://b.org")[18]? = some 46 := by
  refine ⟨by decide, by decide, by decide⟩

/-! ### Claim C7: facet builder vs scanner -/

/-- Claim C7 (confirmed).  `parse_facets` returns one facet per span of
`parse_urls` on the same text, in the same order (`Forall₂` pairs them up
positionally and forces equal lengths), with `byteStart`/`byteEnd` equal
to the offsets of the span and a single link feature whose identifier field —
named `uri`, not `url` — carries the URL bytes of the span. -/
theorem C7_facets_match_spans (bs : List Nat) :
    (parse_facets bs).length = (parse_urls bs).length ∧
    List.Forall₂
      (fun f u => f.index.byteStart = u.start ∧ f.index.byteEnd = u.stop ∧
        f.features = [⟨"app.bsky.richtext.facet#link", u.url⟩])
      (parse_facets bs) (parse_urls bs) := by
  constructor
  · simp [parse_facets]
  · unfold parse_facets
    induction parse_urls bs with
    | nil => exact List.Forall₂.nil
    | cons u rest ih => exact List.Forall₂.cons ⟨rfl, rfl, rfl⟩ ih

/-! ### Claim C3: the post composer -/

/-- Claim C3 (confirmed).  The composed post is the content string
(title, newline, link, newline, abstract fragment) truncated to at most
293 characters, followed by the fixed suffix — a 3-character ellipsis
`...` plus the emoji `📈🤖` — appended unconditionally whether or not
truncation occurred; when the content exceeds 293 characters, exactly
293 characters of it precede the suffix. -/
theorem C3_truncate_and_suffix (title link desc : List Char) :
    compose title link desc =
      (title ++ ('\n' :: (link ++ ('\n' :: fragment desc)))).take 293 ++ postSuffix ∧
    postSuffix = ['.', '.', '.'] ++ ['📈', '🤖'] ∧
    ((title ++ ('\n' :: (link ++ ('\n' :: fragment desc)))).length ≤ 293 →
      compose title link desc =
        (title ++ ('\n' :: (link ++ ('\n' :: fragment desc)))) ++ postSuffix) ∧
    (293 < (title ++ ('\n' :: (link ++ ('\n' :: fragment desc)))).length →
      (compose title link desc).take 293 =
          (title ++ ('\n' :: (link ++ ('\n' :: fragment desc)))).take 293 ∧
        ((compose title link desc).take 293).length = 293 ∧
        (compose title link desc).drop 293 = postSuffix) := by
  refine ⟨rfl, rfl, ?_, ?_⟩
  · intro hle
    unfold compose
    rw [List.take_of_length_le hle]
  · intro hgt
    have hlen : ((title ++ ('\n' :: (link ++ ('\n' :: fragment desc)))).take 293).length = 293 := by
      rw [List.length_take]
      omega
    refine ⟨?_, ?_, ?_⟩
    · unfold compose
      exact List.take_left' hlen
    · unfold compose
      rw [List.take_left' hlen, hlen]
    · unfold compose
      exact List.drop_left' hlen

set_option maxRecDepth 8192 in
theorem C3_witness :
    293 < ((List.replicate 300 'a') ++ ('\n' :: ("L".data ++ ('\n' :: fragment "D".data)))).length ∧
    ((compose (List.replicate 300 'a') "L".data "D".data).take 293 =
        ((List.replicate 300 'a') ++ ('\n' :: ("L".data ++ ('\n' :: fragment "D".data)))).take 293 ∧
      ((compose (List.replicate 300 'a') "L".data "D".data).take 293).length = 293 ∧
      (compose (List.replicate 300 'a') "L".data "D".data).drop 293 = postSuffix) :=
  ⟨by decide, (C3_truncate_and_suffix (List.replicate 300 'a') "L".data "D".data).2.2.2 (by decide)⟩

/-! ### Claim C10: the `Abstract:` split

The split-and-take-last of line 240 removes left-to-right,
non-overlapping occurrences of the separator; `Abstract:` has no
self-overlap (no nonempty proper prefix of it is also a suffix), so the
result is exactly the text after the rightmost occurrence, and the whole
text when the separator does not occur. -/

lemma take_append_le {α : Type} (u t : List α) :
    ∀ n, n ≤ u.length → (u ++ t).take n = u.take n := by
  induction u with
  | nil =>
    intro n h
    have : n = 0 := Nat.le_zero.mp h
    subst this
    rfl
  | cons a u ih =>
    intro n h
    cases n with
    | zero => rfl
    | succ n => simpa using ih n (Nat.le_of_succ_le_succ h)


lemma afterFirst_cons (sep : List Char) (c : Char) (t : List Char) :
    afterFirst sep (c :: t) =
      if sep.isPrefixOf (c :: t) then some ((c :: t).drop sep.length)
      else afterFirst sep t := rfl

lemma afterFirst_shorter (sep : List Char) (hne : sep ≠ []) :
    ∀ l r, afterFirst sep l = some r → r.length < l.length := by
  intro l
  induction l with
  | nil =>
    intro r h
    simp [afterFirst] at h
  | cons c t ih =>
    intro r h
    rw [afterFirst_cons] at h
    by_cases hp : sep.isPrefixOf (c :: t) = true
    · rw [if_pos hp] at h
      injection h with h
      have hsep : 0 < sep.length := List.length_pos.mpr hne
      rw [← h, List.length_drop]
      simp only [List.length_cons]
      omega
    · rw [if_neg hp] at h
      have := ih r h
      simp only [List.length_cons]
      omega

lemma afterFirst_finds (sep : List Char) (hne : sep ≠ []) :
    ∀ (a b : List Char), ∃ r, afterFirst sep (a ++ (sep ++ b)) = some r := by
  intro a
  induction a with
  | nil =>
    intro b
    obtain ⟨s, ss, rfl⟩ := List.exists_cons_of_ne_nil hne
    have hpre : (s :: ss).isPrefixOf (s :: (ss ++ b)) = true :=
      List.isPrefixOf_iff_prefix.mpr ⟨b, by simp⟩
    refine ⟨(s :: (ss ++ b)).drop (s :: ss).length, ?_⟩
    rw [List.nil_append, List.cons_append, afterFirst_cons, if_pos hpre]
  | cons c a ih =>
    intro b
    rw [List.cons_append, afterFirst_cons]
    by_cases hp : (sep.isPrefixOf (c :: (a ++ (sep ++ b)))) = true
    · exact ⟨_, by rw [if_pos hp]⟩
    · obtain ⟨r, hr⟩ := ih b
      exact ⟨r, by rw [if_neg hp]; exact hr⟩

/-- A border-free separator cannot match strictly inside the region
`x ++ sep`: a prefix occurrence overlapping the later full occurrence
would exhibit a border. -/
lemma no_overlap_inside (sep : List Char) (hbf : borderFree sep)
    (x b : List Char) (hx : x ≠ []) (hlt : x.length < sep.length)
    (hp : sep.isPrefixOf (x ++ (sep ++ b)) = true) : False := by
  obtain ⟨t, ht⟩ := List.isPrefixOf_iff_prefix.mp hp
  have hdrop : (sep.drop x.length) ++ t = sep ++ b := by
    have := congrArg (List.drop x.length) ht
    rw [drop_append_le sep t x.length (Nat.le_of_lt hlt)] at this
    rw [this]
    exact (List.drop_left x (sep ++ b)).symm ▸ rfl
  have hlen : (sep.drop x.length).length = sep.length - x.length := List.length_drop _ _
  have htake : sep.drop x.length = sep.take (sep.length - x.length) := by
    have h1 := congrArg (List.take (sep.length - x.length)) hdrop
    rw [take_append_le (sep.drop x.length) t _ (Nat.le_of_eq hlen.symm)] at h1
    rw [List.take_of_length_le (Nat.le_of_eq hlen)] at h1
    rw [take_append_le sep b _ (Nat.sub_le _ _)] at h1
    exact h1
  have hxpos : 0 < x.length := List.length_pos.mpr hx
  exact hbf x.length hlt hxpos htake

lemma afterFirst_structure (sep : List Char) (hbf : borderFree sep) (hne : sep ≠ []) :
    ∀ (a b r : List Char), afterFirst sep (a ++ (sep ++ b)) = some r →
      r = b ∨ ∃ x, r = x ++ (sep ++ b) ∧ x.length < a.length := by
  intro a
  induction a with
  | nil =>
    intro b r h
    obtain ⟨s, ss, hss⟩ := List.exists_cons_of_ne_nil hne
    rw [List.nil_append] at h
    have hpre : sep.isPrefixOf (sep ++ b) = true :=
      List.isPrefixOf_iff_prefix.mpr ⟨b, rfl⟩
    rw [hss, List.cons_append, afterFirst_cons, ← List.cons_append, ← hss,
      if_pos hpre] at h
    injection h with h
    left
    rw [← h, List.drop_left]
  | cons c a ih =>
    intro b r h
    rw [List.cons_append, afterFirst_cons] at h
    by_cases hp : (sep.isPrefixOf (c :: (a ++ (sep ++ b)))) = true
    · rw [if_pos hp] at h
      injection h with h
      rcases Nat.lt_or_ge (c :: a).length sep.length with hlt | hge
      · exact (no_overlap_inside sep hbf (c :: a) b (by simp) hlt hp).elim
      · right
        refine ⟨(c :: a).drop sep.length, ?_, ?_⟩
        · rw [← h]
          rw [show c :: (a ++ (sep ++ b)) = (c :: a) ++ (sep ++ b) from rfl]
          exact (drop_append_le (c :: a) (sep ++ b) sep.length hge).symm ▸ rfl
        · rw [List.length_drop]
          have : 0 < sep.length := List.length_pos.mpr hne
          omega
    · rw [if_neg hp] at h
      rcases ih b r h with hcase | ⟨x, hx, hxl⟩
      · exact Or.inl hcase
      · exact Or.inr ⟨x, hx, by simp only [List.length_cons]; omega⟩


lemma lastSegF_none (sep : List Char) (l : List Char) (h : afterFirst sep l = none) :
    ∀ fuel, lastSegF sep fuel l = l := by
  intro fuel
  cases fuel with
  | zero => rfl
  | succ fuel => simp [lastSegF, h]

lemma lastSegF_marker_after : ∀ (n : Nat) (a b : List Char),
    afterFirst marker b = none → (a ++ (marker ++ b)).length ≤ n →
    lastSegF marker n (a ++ (marker ++ b)) = b := by
  intro n
  induction n using Nat.strong_induction_on with
  | _ n ih =>
    intro a b hb hlen
    have hne : marker ≠ [] := by decide
    have hbf : borderFree marker := by decide
    obtain ⟨r, hr⟩ := afterFirst_finds marker hne a b
    cases n with
    | zero =>
      exfalso
      have hm9 : (0 : Nat) < marker.length := by decide
      have hlen2 : (a ++ (marker ++ b)).length = a.length + (marker.length + b.length) := by
        simp [List.length_append]
      omega
    | succ m =>
      have hstep : lastSegF marker (m + 1) (a ++ (marker ++ b)) = lastSegF marker m r := by
        simp [lastSegF, hr]
      rw [hstep]
      have hshort : r.length < (a ++ (marker ++ b)).length :=
        afterFirst_shorter marker hne _ r hr
      rcases afterFirst_structure marker hbf hne a b r hr with hcase | ⟨x, hx, _⟩
      · rw [hcase]
        exact lastSegF_none marker b hb m
      · rw [hx]
        apply ih m (by omega) x b hb
        rw [← hx]
        omega

/-- Claim C10 (confirmed).  When the description contains no
`"Abstract:"` marker the abstract fragment of the composer is the whole
(stripped) description; when the marker occurs (possibly several times,
also inside the leading part), the fragment is the stripped text after
the last occurrence. -/
theorem C10_marker_split :
    (∀ d : List Char, afterFirst marker d = none → fragment d = pyStrip d) ∧
    (∀ a b : List Char, afterFirst marker b = none →
      fragment (a ++ (marker ++ b)) = pyStrip b) := by
  constructor
  · intro d h
    unfold fragment lastSeg
    rw [lastSegF_none marker d h]
  · intro a b hb
    unfold fragment lastSeg
    rw [lastSegF_marker_after _ a b hb (Nat.le_refl _)]

theorem C10_witness :
    afterFirst marker "no marker here".data = none ∧
    fragment "no marker here".data = pyStrip "no marker here".data ∧
    fragment ("xAbstract: one ".data ++ (marker ++ " two ".data)) = pyStrip " two ".data :=
  ⟨by decide, C10_marker_split.1 "no marker here".data (by decide),
    C10_marker_split.2 "xAbstract: one ".data " two ".data (by decide)⟩

/-! ### Claims C5, C6, C8: archive read, diff and persistence -/

lemma map_update_notin {α β : Type} [DecidableEq α] (d : List (α × β)) (k : α) (v : β)
    (h : ∀ p ∈ d, p.1 ≠ k) : d.map (fun p => if p.1 = k then (k, v) else p) = d := by
  induction d with
  | nil => rfl
  | cons p d ih =>
    rw [List.map_cons, if_neg (h p (by simp)), ih (fun q hq => h q (by simp [hq]))]

lemma alookup_append_left {α β : Type} [DecidableEq α] (k : α) (v : β) :
    ∀ (d s : List (α × β)), alookup k d = some v → alookup k (d ++ s) = some v := by
  intro d s
  induction d with
  | nil => intro h; simp [alookup] at h
  | cons p d ih =>
    intro h
    rw [alookup] at h
    rw [List.cons_append, alookup]
    by_cases hp : p.1 = k
    · rwa [if_pos hp] at h ⊢
    · rw [if_neg hp] at h ⊢
      exact ih h

lemma keysOf_append {α β : Type} (d s : List (α × β)) :
    keysOf (d ++ s) = keysOf d ++ keysOf s := by
  simp [keysOf]

lemma fold_extends {α β : Type} [DecidableEq α] :
    ∀ (feed archive s : List (α × β)), (∀ k ∈ keysOf s, k ∉ keysOf archive) →
      ∃ s2,
        feed.foldl (fun acc kv => if kv.1 ∈ keysOf archive then acc else dinsert acc kv.1 kv.2)
            (archive ++ s) = archive ++ s2 ∧
          ∀ k ∈ keysOf s2, k ∉ keysOf archive := by
  intro feed
  induction feed with
  | nil => intro archive s hs; exact ⟨s, rfl, hs⟩
  | cons kv feed ih =>
    intro archive s hs
    rw [List.foldl_cons]
    by_cases hmem : kv.1 ∈ keysOf archive
    · rw [if_pos hmem]
      exact ih archive s hs
    · rw [if_neg hmem]
      unfold dinsert
      by_cases hacc : kv.1 ∈ keysOf (archive ++ s)
      · rw [if_pos hacc, List.map_append,
          map_update_notin archive kv.1 kv.2 (fun p hp => by
            intro hcontra
            exact hmem (hcontra ▸ List.mem_map.mpr ⟨p, hp, rfl⟩))]
        apply ih archive (s.map fun p => if p.1 = kv.1 then (kv.1, kv.2) else p)
        intro k hk
        rcases List.mem_map.mp hk with ⟨q, hq, hqk⟩
        rcases List.mem_map.mp hq with ⟨p, hp, rfl⟩
        by_cases hcase : p.1 = kv.1
        · rw [if_pos hcase] at hqk
          rw [← hqk]
          exact hmem
        · rw [if_neg hcase] at hqk
          rw [← hqk]
          exact hs p.1 (List.mem_map.mpr ⟨p, hp, rfl⟩)
      · rw [if_neg hacc, List.append_assoc]
        apply ih archive (s ++ [(kv.1, kv.2)])
        intro k hk
        rw [keysOf_append] at hk
        rcases List.mem_append.mp hk with hk | hk
        · exact hs k hk
        · have : k = kv.1 := by simpa [keysOf] using hk
          rw [this]
          exact hmem

lemma newArchive_extends {α β : Type} [DecidableEq α] (feed archive : List (α × β)) :
    ∃ s, newArchive feed archive = archive ++ s ∧ ∀ k ∈ keysOf s, k ∉ keysOf archive := by
  have h := fold_extends feed archive [] (by simp [keysOf])
  rwa [List.append_nil] at h

/-- Claim C8 (confirmed).  Each rewritten archive extends the
previous one: the old archive is a prefix of the new one (so no deletion
and no overwrite of an existing key — every previous key still resolves
to its previous value), and the file is rewritten exactly when the new
archive is strictly larger. -/
theorem C8_archive_monotone {α β : Type} [DecidableEq α] (feed archive : List (α × β)) :
    archive <+: newArchive feed archive ∧
    (∀ k v, alookup k archive = some v → alookup k (newArchive feed archive) = some v) ∧
    (shouldPersist feed archive = true ↔ archive.length < (newArchive feed archive).length) := by
  obtain ⟨s, hs, _⟩ := newArchive_extends feed archive
  refine ⟨⟨s, hs.symm⟩, ?_, ?_⟩
  · intro k v hk
    rw [hs]
    exact alookup_append_left k v archive s hk
  · unfold shouldPersist
    exact decide_eq_true_iff

theorem C8_witness :
    alookup (1 : Nat) [((1 : Nat), (2 : Nat))] = some 2 ∧
    alookup (1 : Nat) (newArchive [((3 : Nat), (4 : Nat))] [(1, 2)]) = some 2 :=
  ⟨by decide, (C8_archive_monotone [((3 : Nat), (4 : Nat))] [(1, 2)]).2.1 1 2 (by decide)⟩

lemma keysOf_cons {α β : Type} (kv : α × β) (d : List (α × β)) :
    keysOf (kv :: d) = kv.1 :: keysOf d := rfl

lemma fold_filter {α β : Type} [DecidableEq α] :
    ∀ (feed archive acc : List (α × β)), (keysOf feed).Nodup →
      (∀ k ∈ keysOf feed, k ∈ keysOf acc → k ∈ keysOf archive) →
      feed.foldl (fun acc kv => if kv.1 ∈ keysOf archive then acc else dinsert acc kv.1 kv.2)
          acc =
        acc ++ feed.filter fun kv => decide (kv.1 ∉ keysOf archive) := by
  intro feed
  induction feed with
  | nil => intro archive acc _ _; simp
  | cons kv feed ih =>
    intro archive acc hnd hsub
    have hnd2 : (keysOf feed).Nodup := by
      rw [keysOf_cons] at hnd
      exact hnd.of_cons
    have hkv : kv.1 ∉ keysOf feed := by
      rw [keysOf_cons] at hnd
      exact (List.nodup_cons.mp hnd).1
    rw [List.foldl_cons]
    by_cases hmem : kv.1 ∈ keysOf archive
    · rw [if_pos hmem, List.filter_cons_of_neg (by simp [hmem])]
      exact ih archive acc hnd2 (fun k hk hacc =>
        hsub k (by rw [keysOf_cons]; exact List.mem_cons_of_mem _ hk) hacc)
    · rw [if_neg hmem, List.filter_cons_of_pos (by simp [hmem])]
      have hnacc : kv.1 ∉ keysOf acc := fun hacc =>
        hmem (hsub kv.1 (by rw [keysOf_cons]; exact List.mem_cons_self _ _) hacc)
      have hdin : dinsert acc kv.1 kv.2 = acc ++ [kv] := by
        unfold dinsert
        rw [if_neg hnacc]
      have hsub2 : ∀ k ∈ keysOf feed, k ∈ keysOf (acc ++ [kv]) → k ∈ keysOf archive := by
        intro k hk hacc2
        rw [keysOf_append] at hacc2
        rcases List.mem_append.mp hacc2 with h | h
        · exact hsub k (by rw [keysOf_cons]; exact List.mem_cons_of_mem _ hk) h
        · have hkkv : k = kv.1 := by simpa [keysOf] using h
          exact absurd (hkkv ▸ hk) hkv
      rw [hdin, ih archive (acc ++ [kv]) hnd2 hsub2, List.append_assoc]
      rfl

/-- Claim C6 (confirmed).  The differ yields exactly the fetched entries
whose key is absent from the archive, in fetch order (a sublist of the
feed), the rewritten archive is the old one plus exactly those entries,
and the file is rewritten iff at least one new key was found. -/
theorem C6_differ {α β : Type} [DecidableEq α] (feed archive : List (α × β))
    (hnd : (keysOf feed).Nodup) :
    (∀ kv, kv ∈ newEntries feed archive ↔ kv ∈ feed ∧ kv.1 ∉ keysOf archive) ∧
    (newEntries feed archive).Sublist feed ∧
    newArchive feed archive = archive ++ newEntries feed archive ∧
    (shouldPersist feed archive = true ↔ newEntries feed archive ≠ []) := by
  have harch : newArchive feed archive = archive ++ newEntries feed archive :=
    fold_filter feed archive archive hnd (fun _ _ h => h)
  refine ⟨?_, List.filter_sublist _, harch, ?_⟩
  · intro kv
    simp [newEntries, List.mem_filter]
  · unfold shouldPersist
    rw [harch]
    simp only [List.length_append, decide_eq_true_iff]
    constructor
    · intro h hcontra
      rw [hcontra] at h
      simp at h
    · intro h
      have : 0 < (newEntries feed archive).length := List.length_pos.mpr h
      omega

theorem C6_witness :
    (keysOf [((1 : Nat), (10 : Nat)), (2, 20)]).Nodup ∧
    (shouldPersist [((1 : Nat), (10 : Nat)), (2, 20)] [(1, 10)] = true ↔
      newEntries [((1 : Nat), (10 : Nat)), (2, 20)] [(1, 10)] ≠ []) ∧
    newEntries [((1 : Nat), (10 : Nat)), (2, 20)] [(1, 10)] = [(2, 20)] ∧
    shouldPersist [((1 : Nat), (10 : Nat)), (2, 20)] [(1, 10)] = true ∧
    newEntries ([] : List (Nat × Nat)) [] = [] ∧
    shouldPersist ([] : List (Nat × Nat)) [] = false :=
  ⟨by decide, (C6_differ [((1 : Nat), (10 : Nat)), (2, 20)] [(1, 10)] (by decide)).2.2.2,
    by decide, by decide, by decide, by decide⟩

/-- Claim C5 (corrected / amended form).  Only an absent archive file is
recovered: the `except FileNotFoundError` arm substitutes the empty
archive, after which every fetched entry is new.  Unparseable content is
NOT recovered — `json.load` raises `JSONDecodeError`, no handler catches
it, and the run fails.  (The original claim that a corrupt file is also
treated as empty is refuted by `C5_counterexample`.) -/
theorem C5_absent_recovered :
    loadArchive (ArchiveFile.absent : ArchiveFile (List (Nat × Nat))) = Except.ok [] ∧
    (∀ feed : List (Nat × Nat), newEntries feed [] = feed) ∧
    (∀ a : List (Nat × Nat), loadArchive (ArchiveFile.stored a) = Except.ok a) ∧
    loadArchive (ArchiveFile.corrupt : ArchiveFile (List (Nat × Nat))) =
      Except.error "json.JSONDecodeError" := by
  refine ⟨rfl, ?_, fun a => rfl, rfl⟩
  intro feed
  simp [newEntries, keysOf]

/-- Counterexample to claim C5 as stated: a corrupt (unparseable)
archive file does not yield the empty archive — the run propagates a
`JSONDecodeError` instead of proceeding. -/
theorem C5_counterexample :
    loadArchive (ArchiveFile.corrupt : ArchiveFile (List (Nat × Nat))) ≠ Except.ok [] ∧
    loadArchive (ArchiveFile.corrupt : ArchiveFile (List (Nat × Nat))) =
      Except.error "json.JSONDecodeError" :=
  ⟨fun h => Except.noConfusion h, rfl⟩

/-! ### Claim C4: the placeholder-post condition -/

lemma pyCond_eq (n L : Nat) : pyCond n L = decide (n = 0) := by
  unfold pyCond
  have hland : Nat.land 0 (if 2 < L then 1 else 0) = 0 := by
    by_cases hl : 2 < L
    · rw [if_pos hl]
      decide
    · rw [if_neg hl]
      decide
  rw [hland]
  cases n <;> rfl

/-- Claim C4 (corrected / amended form).  The placeholder post is
published iff zero new entries were found — the archive-size threshold
is inert, because `&` binds tighter than `==` in Python, so the guard
parses as `new_posts == (0 & (len(archive) > 2))`, and `0 & anything`
is `0`. -/
theorem C4_placeholder_iff_no_new {α : Type} [DecidableEq α]
    (pull archive : List (α × Entry)) :
    mainPosts pull archive =
      (loopState pull archive).posts ++
        (if (loopState pull archive).newPosts = 0 then [placeholderStr] else []) := by
  unfold mainPosts
  rw [pyCond_eq]
  by_cases h : (loopState pull archive).newPosts = 0 <;> simp [h]

/-- Counterexample to claim C4 as stated: with an empty feed and an
empty archive (holding 0 ≤ 2 entries) the claim forbids the placeholder,
but the code posts it. -/
theorem C4_counterexample :
    mainPosts ([] : List (Nat × Entry)) [] = [placeholderStr] ∧
    ¬2 < ([] : List (Nat × Entry)).length :=
  ⟨by decide, by decide⟩
